import Mathlib

/-!
# Verification of the sandboxed hierarchical note store

Shallow embedding of the core of `backend/services/file_service.py`,
`backend/services/note_service.py`, `backend/services/folder_service.py` and
`backend/models/note.py`.

Modelling conventions:
* Python strings are `List Char` (`Str`); paths are `/`-separated strings.
* The filesystem is an explicit state: an association list from resolved
  absolute paths (lists of segments) to file contents, plus a list of
  existing directories.  The sandbox root is an abstract segment list
  `root`; `pathlib.Path.resolve()` is modelled as symlink-free segment
  normalisation (`resolveSegs`), clamping `..` at the filesystem root.
* Python exceptions are an `Err` value returned next to the post-state
  (side effects before a raise persist, as in Python).  `ValueError`
  is `invalidPath`, `FileNotFoundError` is `notFound`, `FileExistsError`
  is `alreadyExists`, the "Folder not empty" `OSError` is `notEmpty`,
  and any other exception (e.g. `shutil.Error`, `AttributeError`) is
  `internalError` (the HTTP layer maps those to a 500).
* `stat` metadata (timestamps, size) and the resulting `modified_at`
  ordering of listings are not modelled; claims here do not depend on them.
-/

namespace NoteStoreProof

/-- Python strings, modelled as lists of characters. -/
abbrev Str := List Char

/-- The literal `'..'`. -/
def dotdot : Str := ['.', '.']

/-- The literal `'.txt'`. -/
def txtExt : Str := ['.', 't', 'x', 't']

/-- The literal `'.md'`. -/
def mdExt : Str := ['.', 'm', 'd']

/-- Python's `needle in haystack` substring test (for a non-empty needle). -/
def containsSub (n : Str) : Str → Bool
  | [] => false
  | c :: t => n.isPrefixOf (c :: t) || containsSub n t

/-- Python's `s.startswith(c)` for a single character. -/
def startsWithC (c : Char) : Str → Bool
  | [] => false
  | d :: _ => d == c

/-- `os.path.isabs` on POSIX: the path starts with `/`. -/
def isAbsPath (p : Str) : Bool := startsWithC '/' p

/-- Helper for `splitSlash`: accumulates the current segment (reversed). -/
def splitSlashAux (cur : Str) : Str → List Str
  | [] => [cur.reverse]
  | c :: t => if c = '/' then cur.reverse :: splitSlashAux [] t else splitSlashAux (c :: cur) t

/-- Split a path string on `/` into its raw segments. -/
def splitSlash (s : Str) : List Str := splitSlashAux [] s

/-- Join segments with `/` (inverse direction of `splitSlash`); used when the
code renders `str(path.relative_to(notes_dir)).replace('\\', '/')`. -/
def joinSlash : List Str → Str
  | [] => []
  | [s] => s
  | s :: t => s ++ '/' :: joinSlash t

/-- `pathlib.Path.resolve()` on segments, symlink-free: empty and `.` segments
are dropped, `..` pops one segment (clamping at the filesystem root `[]`). -/
def resolveSegs (stack : List Str) : List Str → List Str
  | [] => stack
  | s :: rest =>
    if s = [] ∨ s = ['.'] then resolveSegs stack rest
    else if s = dotdot then resolveSegs stack.dropLast rest
    else resolveSegs (stack ++ [s]) rest

/-- `(notes_dir / path).resolve()`: join the relative path onto the root
segments and canonicalize. -/
def resolveAbs (root : List Str) (p : Str) : List Str := resolveSegs root (splitSlash p)

/-- Error kinds surfaced by the store (see module header for the mapping from
Python exception classes). -/
inductive Err
  | invalidPath
  | notFound
  | alreadyExists
  | notEmpty
  | internalError
deriving DecidableEq, Repr

/-- `FileService.validate_path` (file_service.py:17-43).  The final block
wraps `resolve()` and `is_relative_to` in `try/except (ValueError, OSError):
return False`; the resolution failure reachable for a pure string is the
`ValueError` the OS layer raises on an embedded NUL byte, modelled as the
explicit NUL test before the containment check. -/
def validate_path (root : List Str) (p : Str) : Bool :=
  if p = [] then true
  else if containsSub dotdot p || startsWithC '/' p || startsWithC '\\' p then false
  else if isAbsPath p then false
  else if p.contains '\x00' then false
  else root.isPrefixOf (resolveAbs root p)

/-- `FileService._get_full_path` (file_service.py:45-61): validate, then
return the resolved absolute location. -/
def getFullPath (root : List Str) (p : Str) : Except Err (List Str) :=
  if validate_path root p then .ok (resolveAbs root p) else .error .invalidPath

/-! ### Filesystem state

Note: Lean 4.14 core lacks a `DecidableEq`/`BEq`-derived instance for nothing
we need; all keys are `List Str` which has decidable equality. -/

/-- The filesystem subtree under the sandbox root: an association list from
resolved absolute paths to file contents, plus the list of existing
directories (the root itself always exists and is not listed). -/
structure FS where
  files : List (List Str × Str)
  dirs : List (List Str)
deriving DecidableEq, Repr

/-- `Path.is_dir()` for a resolved location. -/
def FS.isDir (fs : FS) (root k : List Str) : Bool :=
  k == root || fs.dirs.contains k

/-- `Path.is_file()` for a resolved location. -/
def FS.isFile (fs : FS) (k : List Str) : Bool :=
  (fs.files.lookup k).isSome

/-- `Path.exists()` for a resolved location. -/
def FS.entryExists (fs : FS) (root k : List Str) : Bool :=
  fs.isFile k || fs.isDir root k

/-- `write_text`: set (or overwrite) the content stored at a key. -/
def setFile : List (List Str × Str) → List Str → Str → List (List Str × Str)
  | [], k, c => [(k, c)]
  | (k', c') :: t, k, c => if k' = k then (k, c) :: t else (k', c') :: setFile t k c

/-- Record a directory as existing (no-op when already present). -/
def insertDir (fs : FS) (d : List Str) : FS :=
  if fs.dirs.contains d then fs else { fs with dirs := fs.dirs ++ [d] }

/-- All prefixes of a list, shortest first (including `[]` and the list). -/
def prefixesOf : List α → List (List α)
  | [] => [[]]
  | a :: t => [] :: (prefixesOf t).map (a :: ·)

/-- The directory insertions a successful `mkdir(parents=True)` at `k`
performs: record `k` and every missing ancestor strictly below the root. -/
def mkdirsRun (root : List Str) (fs : FS) (k : List Str) : FS :=
  (prefixesOf k).foldl
    (fun f pr => if root.isPrefixOf pr && !(pr == root) then insertDir f pr else f) fs

/-- `mkdir(parents=True, exist_ok=True)` at `k`.  The call raises when a
component on the creation path (an ancestor of `k`, or `k` itself) exists as
a regular file — `NotADirectoryError` for an ancestor, `FileExistsError` for
`k` itself since `exist_ok` only tolerates an existing *directory*; both are
`OSError`s outside the four recoverable kinds, modelled as `internalError`.
Nothing is created in that case.  Otherwise the missing directories are
recorded. -/
def mkdirs (root : List Str) (fs : FS) (k : List Str) : Except Err FS :=
  if (prefixesOf k).any (fun pr => root.isPrefixOf pr && fs.isFile pr) then
    .error .internalError
  else .ok (mkdirsRun root fs k)

/-! ### Note file operations (`FileService`, file_service.py) -/

/-- The `if not note_path.endswith('.txt'): note_path += '.txt'` prologue
shared by `read_note`/`write_note`/`delete_note`/`note_exists`. -/
def addTxt (p : Str) : Str := if txtExt.isSuffixOf p then p else p ++ txtExt

/-- `FileService.read_note` (file_service.py:65-87). -/
def read_note (root : List Str) (fs : FS) (p0 : Str) : Except Err Str :=
  let p := addTxt p0
  match getFullPath root p with
  | .error e => .error e
  | .ok k =>
    if fs.entryExists root k then
      match fs.files.lookup k with
      | some c => .ok c
      | none => .error .internalError   -- read_text on a directory raises an OSError
    else .error .notFound

/-- `FileService.write_note` (file_service.py:89-109): create parent
directories (which can itself fail, see `mkdirs`), then write
unconditionally (`write_text` on a directory raises). -/
def write_note (root : List Str) (fs : FS) (p0 c : Str) : FS × Except Err Unit :=
  let p := addTxt p0
  match getFullPath root p with
  | .error e => (fs, .error e)
  | .ok k =>
    match mkdirs root fs k.dropLast with
    | .error e => (fs, .error e)
    | .ok fs1 =>
      if fs1.isDir root k then (fs1, .error .internalError)
      else ({ fs1 with files := setFile fs1.files k c }, .ok ())

/-- `FileService.note_exists` (file_service.py:569-577): append `.txt` when
missing, validate, and test `exists() and is_file()`; an invalid path yields
`False` (the `ValueError` is swallowed). -/
def note_exists (root : List Str) (fs : FS) (p0 : Str) : Bool :=
  let p := addTxt p0
  match getFullPath root p with
  | .error _ => false
  | .ok k => fs.isFile k

/-! ### Note metadata (`Note.from_file`, models/note.py) and listing -/

/-- `Path(...).name`: the final path segment. -/
def lastSeg (s : Str) : Str := (splitSlash s).getLastD []

/-- Index of the last `.` in a name (`str.rfind('.')`), if any. -/
def rfindDotIdx (n : Str) : Option Nat :=
  match n.reverse.findIdx? (· == '.') with
  | none => none
  | some j => some (n.length - 1 - j)

/-- `pathlib` `suffix`: the last extension, empty unless the final dot is
interior (`0 < i < len(name) - 1`). -/
def suffixName (n : Str) : Str :=
  match rfindDotIdx n with
  | some i => if 0 < i ∧ i < n.length - 1 then n.drop i else []
  | none => []

/-- `pathlib` `stem`: the name with its last extension removed. -/
def stemName (n : Str) : Str :=
  match rfindDotIdx n with
  | some i => if 0 < i ∧ i < n.length - 1 then n.take i else n
  | none => n

/-- The in-memory note record (`models/note.py`); `stat` metadata
(timestamps, size) is outside the model. `ftype` is `"txt"` or `"md"`. -/
structure NoteRec where
  path : Str
  name : Str
  content : Str
  ftype : Str
deriving DecidableEq, Repr

/-- The literal `'txt'`. -/
def txtT : Str := ['t', 'x', 't']

/-- The literal `'md'`. -/
def mdT : Str := ['m', 'd']

/-- `Note.from_file` (models/note.py:18-48): relative path with separators
normalized (extension kept), `name` is the stem, `file_type` from the
lower-cased suffix, content read best-effort (absent means empty). -/
def noteFromFile (root : List Str) (fs : FS) (k : List Str) : NoteRec :=
  let fname := k.getLastD []
  { path := joinSlash (k.drop root.length)
  , name := stemName fname
  , content := (fs.files.lookup k).getD []
  , ftype := if (suffixName fname).map Char.toLower == mdExt then mdT else txtT }

/-- `full_path.glob('*.txt')` restricted to files: keys directly inside `k`
whose final segment ends in `.txt`. -/
def globTxtChildren (fs : FS) (k : List Str) : List (List Str) :=
  (fs.files.map Prod.fst).filter
    (fun e => !e.isEmpty && e.dropLast == k && txtExt.isSuffixOf (e.getLastD []))

/-- `FileService.list_notes` (file_service.py:236-271); the `modified_at`
sort is outside the model (stat metadata is not modelled). -/
def list_notes (root : List Str) (fs : FS) (folder : Str) : Except Err (List NoteRec) :=
  match getFullPath root folder with
  | .error e => .error e
  | .ok k =>
    if !(fs.entryExists root k) then .error .notFound
    else if !(fs.isDir root k) then .error .invalidPath
    else .ok ((globTxtChildren fs k).map (noteFromFile root fs))

/-- `self.notes_dir.rglob('*.txt')` restricted to files: keys strictly below
the root whose final segment ends in `.txt`. -/
def globTxtAll (root : List Str) (fs : FS) : List (List Str) :=
  (fs.files.map Prod.fst).filter
    (fun e => !e.isEmpty && root.isPrefixOf e && !(e == root) &&
      txtExt.isSuffixOf (e.getLastD []))

/-- `FileService.list_all_notes` (file_service.py:273-293); as with
`list_notes`, the `modified_at` sort is outside the model. -/
def list_all_notes (root : List Str) (fs : FS) : List NoteRec :=
  (globTxtAll root fs).map (noteFromFile root fs)

/-- The `notes` field `FileService._build_folder_tree` computes at the tree
node for directory `k` (file_service.py:519-529): the same
`glob('*.txt')` + `Note.from_file` loop as `list_notes`. -/
def treeNodeNotes (root : List Str) (fs : FS) (k : List Str) : List NoteRec :=
  (globTxtChildren fs k).map (noteFromFile root fs)

/-! ### Name sanitization (`FileService._sanitize_filename`) -/

/-- ASCII whitespace as stripped by `str.strip()` (the Unicode cases are
outside the model). -/
def isPySpace (c : Char) : Bool :=
  c == ' ' || c == '\t' || c == '\n' || c == '\r' || c == '\x0b' || c == '\x0c'

/-- `s.strip(chars)`: drop matching characters from both ends. -/
def stripBoth (p : Char → Bool) (s : Str) : Str :=
  ((s.dropWhile p).reverse.dropWhile p).reverse

/-- The `dangerous_chars` list of file_service.py:560. -/
def dangerousChars : Str := ['/', '\\', ':', '*', '?', '"', '<', '>', '|', '\x00']

/-- The replacement loop: each dangerous character becomes `-` (the
replacements are independent, so a single map is equivalent to the
sequential `str.replace` calls). -/
def replaceDangerous (s : Str) : Str :=
  s.map (fun c => if dangerousChars.contains c then '-' else c)

/-- `FileService._sanitize_filename` (file_service.py:546-567): strip
whitespace, replace dangerous characters, then strip dots. -/
def sanitize_filename (nm : Str) : Str :=
  stripBoth (· == '.') (replaceDangerous (stripBoth isPySpace nm))

/-! ### Folder operations (`FileService` / `FolderService`) -/

/-- `FileService.create_folder` (file_service.py:297-313); the
`mkdir(parents=True, exist_ok=False)` can still fail when an ancestor
component exists as a regular file (see `mkdirs`). -/
def fsCreateFolder (root : List Str) (fs : FS) (p : Str) : FS × Except Err Unit :=
  match getFullPath root p with
  | .error e => (fs, .error e)
  | .ok k =>
    if fs.entryExists root k then (fs, .error .alreadyExists)
    else match mkdirs root fs k with
    | .error e => (fs, .error e)
    | .ok fs1 => (fs1, .ok ())

/-- A directory entry directly inside `k` (what makes `rmdir` fail). -/
def hasChildEntry (fs : FS) (k : List Str) : Bool :=
  (fs.files.map Prod.fst ++ fs.dirs).any (fun e => !e.isEmpty && e.dropLast == k)

/-- `FileService.delete_folder` (file_service.py:315-346): root undeletable;
`rmtree` removes the subtree, `rmdir` fails on a non-empty directory. -/
def fsDeleteFolder (root : List Str) (fs : FS) (p : Str) (recursive : Bool) :
    FS × Except Err Unit :=
  if p = [] then (fs, .error .invalidPath)
  else match getFullPath root p with
  | .error e => (fs, .error e)
  | .ok k =>
    if !(fs.entryExists root k) then (fs, .error .notFound)
    else if !(fs.isDir root k) then (fs, .error .invalidPath)
    else if recursive then
      (⟨fs.files.filter (fun pr => !(k.isPrefixOf pr.1)),
        fs.dirs.filter (fun d => !(k.isPrefixOf d))⟩, .ok ())
    else if hasChildEntry fs k then (fs, .error .notEmpty)
    else (⟨fs.files, fs.dirs.filter (fun d => !(d == k))⟩, .ok ())

/-- Key translation performed by a successful directory move. -/
def rekey (ksrc knew k : List Str) : List Str :=
  if ksrc.isPrefixOf k then knew ++ k.drop ksrc.length else k

/-- `FileService.move_folder` (file_service.py:396-474), including the
cycle-check block exactly as its control flow executes:
`target == source` raises `ValueError("Cannot move folder into itself")`,
which the outer handler re-raises; the descendant branch raises its
`ValueError` *inside* `try/except ValueError: pass`, so the exception is
swallowed and a descendant target passes the check.  The move then reaches
`shutil.move`, where `os.rename` fails (destination inside source) and
`shutil` raises `shutil.Error` — mapped by the HTTP layer to a 500, with the
tree unchanged. -/
def fsMoveFolder (root : List Str) (fs : FS) (p target : Str) : FS × Except Err Str :=
  if p = [] then (fs, .error .invalidPath)
  else match getFullPath root p with
  | .error e => (fs, .error e)
  | .ok ksrc =>
    if !(fs.entryExists root ksrc) then (fs, .error .notFound)
    else if !(fs.isDir root ksrc) then (fs, .error .invalidPath)
    else match getFullPath root target with
    | .error e => (fs, .error e)
    | .ok ktgt =>
      if !(fs.entryExists root ktgt) then (fs, .error .notFound)
      else if !(fs.isDir root ktgt) then (fs, .error .invalidPath)
      else if ktgt = ksrc then (fs, .error .invalidPath)
      else
        let nm := ksrc.getLastD []
        let knew := ktgt ++ [nm]
        if fs.entryExists root knew then (fs, .error .alreadyExists)
        else if !(root.isPrefixOf knew) then (fs, .error .invalidPath)
        else if ksrc.isPrefixOf knew then (fs, .error .internalError)
        else (⟨fs.files.map (fun pr => (rekey ksrc knew pr.1, pr.2)),
               fs.dirs.map (rekey ksrc knew)⟩,
              .ok (joinSlash (knew.drop root.length)))

/-- `FileService.rename_note` (file_service.py:132-175): append `.txt`,
sanitize the new name (empty → `ValueError`), validate the old path, check
existence, build `parent / newName.txt` — a sanitized name contains no
separator and never starts or ends with `.`, so it is a single normal
segment and `resolve()` leaves the joined path unchanged — re-check
containment, then `os.rename`.  Note that `validate_path` is never invoked
on the computed destination.  An existing destination *file* is silently
overwritten by `os.rename` (modelled by dropping it); renaming a directory
onto an existing entry is outside the model. -/
def fsRenameNote (root : List Str) (fs : FS) (oldPath newName : Str) : FS × Except Err Str :=
  let p := addTxt oldPath
  let nm := sanitize_filename newName
  if nm = [] then (fs, .error .invalidPath)
  else match getFullPath root p with
  | .error e => (fs, .error e)
  | .ok k =>
    if !(fs.entryExists root k) then (fs, .error .notFound)
    else
      let knew := k.dropLast ++ [nm ++ txtExt]
      if !(root.isPrefixOf knew) then (fs, .error .invalidPath)
      else
        ((⟨(fs.files.filter (fun pr => pr.1 == k || !(pr.1 == knew))).map
              (fun pr => (rekey k knew pr.1, pr.2)),
           fs.dirs.map (rekey k knew)⟩ : FS),
         .ok (joinSlash (knew.drop root.length)))

/-- `FileService.rename_folder` (file_service.py:348-394): same shape as the
note rename but rejects an empty old path (root), requires a directory, and
keeps the sanitized name extension-less. -/
def fsRenameFolder (root : List Str) (fs : FS) (oldPath newName : Str) : FS × Except Err Str :=
  if oldPath = [] then (fs, .error .invalidPath)
  else
    let nm := sanitize_filename newName
    if nm = [] then (fs, .error .invalidPath)
    else match getFullPath root oldPath with
    | .error e => (fs, .error e)
    | .ok k =>
      if !(fs.entryExists root k) then (fs, .error .notFound)
      else if !(fs.isDir root k) then (fs, .error .invalidPath)
      else
        let knew := k.dropLast ++ [nm]
        if !(root.isPrefixOf knew) then (fs, .error .invalidPath)
        else
          ((⟨(fs.files.filter (fun pr => pr.1 == k || !(pr.1 == knew))).map
                (fun pr => (rekey k knew pr.1, pr.2)),
             fs.dirs.map (rekey k knew)⟩ : FS),
           .ok (joinSlash (knew.drop root.length)))

/-- `FolderService.create_folder` (folder_service.py:28-61): sanitize the
name, reject an empty result, build `parent/name`, create; returns the new
relative path and the sanitized name. -/
def folderSvcCreate (root : List Str) (fs : FS) (parent nm : Str) :
    FS × Except Err (Str × Str) :=
  let nm' := sanitize_filename nm
  if nm' = [] then (fs, .error .invalidPath)
  else
    let fp := if parent = [] then nm' else parent ++ '/' :: nm'
    match fsCreateFolder root fs fp with
    | (fs', .error e) => (fs', .error e)
    | (fs', .ok _) => (fs', .ok (fp, nm'))

/-! ### NoteService (note_service.py)

`NoteService.get_note` dereferences `FileService._resolve_note_path` and
`FileService.SUPPORTED_EXTENSIONS`; neither is defined in the repository's
`FileService`, so those two members are modelled from the spec below. -/

/-- Modelled from the spec: `FileService.SUPPORTED_EXTENSIONS` is referenced
by note_service.py:41,181 but missing from src's FileService.  Spec §3
invariant 2: the supported set is `{.txt, .md}`. -/
def SUPPORTED_EXTENSIONS : List Str := [txtExt, mdExt]

/-- Whether a regular file exists at the (validated) relative path. -/
def fileAtPath (root : List Str) (fs : FS) (p : Str) : Bool :=
  match getFullPath root p with
  | .error _ => false
  | .ok k => fs.isFile k

/-- Modelled from the spec: `FileService._resolve_note_path` is referenced by
note_service.py:28 but missing from src's FileService.  Spec §4.2 reads a
note by "resolving with the stored extension appended": a path already
carrying a supported extension is returned as-is; otherwise the first
supported extension whose file exists is appended (falling back to `.txt`,
so the subsequent read reports NotFound). -/
def resolveNotePath (root : List Str) (fs : FS) (p : Str) : Str :=
  if txtExt.isSuffixOf p || mdExt.isSuffixOf p then p
  else if fileAtPath root fs (p ++ txtExt) then p ++ txtExt
  else if fileAtPath root fs (p ++ mdExt) then p ++ mdExt
  else p ++ txtExt

/-- The `for ext in SUPPORTED_EXTENSIONS: if path.endswith(ext): strip; break`
loop of note_service.py:41-44. -/
def stripSupportedExt (p : Str) : Str :=
  if txtExt.isSuffixOf p then p.take (p.length - 4)
  else if mdExt.isSuffixOf p then p.take (p.length - 3)
  else p

/-- `NoteService.get_note` (note_service.py:13-59): resolve the stored file,
read it, derive `file_type` from the resolved suffix, and strip the
supported extension from the stored path. -/
def noteGet (root : List Str) (fs : FS) (p : Str) : Except Err NoteRec :=
  let rp := resolveNotePath root fs p
  match read_note root fs rp with
  | .error e => .error e
  | .ok c =>
    .ok { path := stripSupportedExt rp
        , name := stemName (lastSeg rp)
        , content := c
        , ftype := if (suffixName (lastSeg rp)).map Char.toLower == mdExt then mdT else txtT }

/-- `NoteService.create_note` (note_service.py:82-123): validate the file
type, sanitize the name, build `folder/name.ext`, fail on collision via
`note_exists`, write, then return `get_note` on the extension-stripped path. -/
def noteCreate (root : List Str) (fs : FS) (folder nm c ft : Str) : FS × Except Err NoteRec :=
  if !(ft == txtT || ft == mdT) then (fs, .error .invalidPath)
  else
    let nm' := sanitize_filename nm
    if nm' = [] then (fs, .error .invalidPath)
    else
      let ext := '.' :: ft
      let np := (if folder = [] then nm' else folder ++ '/' :: nm') ++ ext
      if note_exists root fs np then (fs, .error .alreadyExists)
      else
        match write_note root fs np c with
        | (fs', .error e) => (fs', .error e)
        | (fs', .ok _) =>
          match noteGet root fs' (np.take (np.length - ext.length)) with
          | .error e => (fs', .error e)
          | .ok nt => (fs', .ok nt)

/-- `NoteService.update_note` (note_service.py:125-148): NotFound unless the
note already exists, then write and return the refreshed record. -/
def noteUpdate (root : List Str) (fs : FS) (p c : Str) : FS × Except Err NoteRec :=
  if !(note_exists root fs p) then (fs, .error .notFound)
  else
    match write_note root fs p c with
    | (fs', .error e) => (fs', .error e)
    | (fs', .ok _) =>
      match noteGet root fs' p with
      | .error e => (fs', .error e)
      | .ok nt => (fs', .ok nt)

/-! ### Concrete sample states (used by evaluation and witness theorems) -/

deriving instance DecidableEq for Except

/-- A sample sandbox root with a single segment `r`. -/
def rroot : List Str := [['r']]

/-- The empty sandbox. -/
def fsEmpty : FS := ⟨[], []⟩

/-- Sample state: directories `x` and `x/child` under the root. -/
def fsC2 : FS := ⟨[], [[['r'], ['x']], [['r'], ['x'], ['c', 'h', 'i', 'l', 'd']]]⟩

/-- Sample state: an empty directory `x` under the root. -/
def fsC3 : FS := ⟨[], [[['r'], ['x']]]⟩

/-- Sample state: one file `a.txt` (content `hi`) directly under the root. -/
def fsC4 : FS := ⟨[([['r'], ['a', '.', 't', 'x', 't']], ['h', 'i'])], []⟩

/-- Sample state: one note stored as `m.md` (content `old`) directly under
the root. -/
def fsC5md : FS := ⟨[([['r'], ['m', '.', 'm', 'd']], ['o', 'l', 'd'])], []⟩

/-- Sample state: a directory `d` containing one file `d/f.txt`. -/
def fsC7 : FS := ⟨[([['r'], ['d'], ['f', '.', 't', 'x', 't']], [])], [[['r'], ['d']]]⟩

/-- Sample state: one file `x.txt` (empty content) directly under the root. -/
def fsC9 : FS := ⟨[([['r'], ['x', '.', 't', 'x', 't']], [])], []⟩

/-! ### Substring and segment lemmas (for C1/C9) -/

theorem containsSub_append_left (n pre s : Str) (h : containsSub n s = true) :
    containsSub n (pre ++ s) = true := by
  induction pre with
  | nil => simpa using h
  | cons c t ih =>
      simp only [List.cons_append, containsSub, Bool.or_eq_true]
      exact Or.inr ih

theorem containsSub_self_append (n suf : Str) (hn : n ≠ []) :
    containsSub n (n ++ suf) = true := by
  cases n with
  | nil => exact absurd rfl hn
  | cons c t =>
      simp only [List.cons_append, containsSub, Bool.or_eq_true]
      exact Or.inl (List.isPrefixOf_iff_prefix.mpr ((c :: t).prefix_append suf))

/-- Every segment produced by `splitSlashAux cur s` occurs contiguously inside
`cur.reverse ++ s`. -/
theorem mem_splitSlashAux_sub (s : Str) : ∀ (cur seg : Str),
    seg ∈ splitSlashAux cur s → ∃ pre suf, pre ++ seg ++ suf = cur.reverse ++ s := by
  induction s with
  | nil =>
      intro cur seg hmem
      simp only [splitSlashAux, List.mem_singleton] at hmem
      exact ⟨[], [], by simp [hmem]⟩
  | cons c t ih =>
      intro cur seg hmem
      simp only [splitSlashAux] at hmem
      by_cases hc : c = '/'
      · rw [if_pos hc] at hmem
        rcases List.mem_cons.mp hmem with hhead | htail
        · exact ⟨[], c :: t, by simp [hhead]⟩
        · obtain ⟨pre, suf, hps⟩ := ih [] seg htail
          refine ⟨cur.reverse ++ [c] ++ pre, suf, ?_⟩
          simp only [List.reverse_nil, List.nil_append] at hps
          simp [hps, List.append_assoc]
      · rw [if_neg hc] at hmem
        obtain ⟨pre, suf, hps⟩ := ih (c :: cur) seg hmem
        refine ⟨pre, suf, ?_⟩
        simpa [List.append_assoc] using hps

/-- A non-empty segment of a path is a substring of the path. -/
theorem containsSub_of_mem_splitSlash {p seg : Str} (hmem : seg ∈ splitSlash p)
    (hne : seg ≠ []) : containsSub seg p = true := by
  obtain ⟨pre, suf, hps⟩ := mem_splitSlashAux_sub p [] seg hmem
  simp only [List.reverse_nil, List.nil_append] at hps
  have h1 : containsSub seg (seg ++ suf) = true := containsSub_self_append seg suf hne
  have h2 : containsSub seg (pre ++ (seg ++ suf)) = true := containsSub_append_left _ _ _ h1
  rwa [← List.append_assoc, hps] at h2

/-! ### Helper lemmas -/

theorem containsSub_mono_right (n s t : Str) (h : containsSub n s = true) :
    containsSub n (s ++ t) = true := by
  induction s with
  | nil => exact absurd h (by simp [containsSub])
  | cons c cs ih =>
      simp only [containsSub, Bool.or_eq_true] at h
      rcases h with hpre | hrest
      · have h1 : n <+: (c :: cs) := List.isPrefixOf_iff_prefix.mp hpre
        have h2 : n <+: (c :: cs) ++ t := h1.trans (List.prefix_append _ _)
        simp only [List.cons_append, containsSub, Bool.or_eq_true]
        exact Or.inl (List.isPrefixOf_iff_prefix.mpr (by simpa using h2))
      · simp only [List.cons_append, containsSub, Bool.or_eq_true]
        exact Or.inr (ih hrest)

theorem validate_path_false_of_dotdot (root : List Str) {p : Str}
    (h : containsSub dotdot p = true) : validate_path root p = false := by
  have hp : p ≠ [] := by
    intro he
    subst he
    exact absurd h (by decide)
  simp [validate_path, hp, h]

theorem getFullPath_ok_inRoot {root : List Str} {p : Str} {k : List Str}
    (h : getFullPath root p = .ok k) : root.isPrefixOf k = true := by
  simp only [getFullPath] at h
  by_cases hv : validate_path root p = true
  · rw [if_pos hv] at h
    cases h
    by_cases hp : p = []
    · subst hp
      have hre : resolveAbs root [] = root := by
        simp [resolveAbs, splitSlash, splitSlashAux, resolveSegs]
      rw [hre]
      exact List.isPrefixOf_iff_prefix.mpr List.prefix_rfl
    · simp only [validate_path, if_neg hp] at hv
      split at hv
      · exact absurd hv (by simp)
      · split at hv
        · exact absurd hv (by simp)
        · split at hv
          · exact absurd hv (by simp)
          · exact hv
  · rw [if_neg (by simpa using hv)] at h
    cases h

theorem lookup_setFile (l : List (List Str × Str)) (k : List Str) (c : Str) :
    (setFile l k c).lookup k = some c := by
  induction l with
  | nil => simp [setFile, List.lookup]
  | cons pr t ih =>
      obtain ⟨k', c'⟩ := pr
      by_cases hk : k' = k
      · subst hk
        simp [setFile, List.lookup]
      · have hbeq : (k == k') = false := beq_eq_false_iff_ne.mpr (Ne.symm hk)
        simp [setFile, if_neg hk, List.lookup, hbeq, ih]

theorem containsSub_addTxt {q : Str} (h : containsSub dotdot q = true) :
    containsSub dotdot (addTxt q) = true := by
  unfold addTxt
  split
  · exact h
  · exact containsSub_mono_right _ _ _ h

theorem txt_isSuffixOf_append (p : Str) : txtExt.isSuffixOf (p ++ txtExt) = true :=
  List.isSuffixOf_iff_suffix.mpr (List.suffix_append p txtExt)

theorem addTxt_eq_append {p : Str} (h : txtExt.isSuffixOf p = false) :
    addTxt p = p ++ txtExt := by
  simp [addTxt, h]

theorem addTxt_append_txt (p : Str) : addTxt (p ++ txtExt) = p ++ txtExt := by
  simp [addTxt, txt_isSuffixOf_append]

theorem stripSupportedExt_append_txt (p : Str) :
    stripSupportedExt (p ++ txtExt) = p := by
  have hlen : (p ++ txtExt).length - 4 = p.length := by
    simp [txtExt, List.length_append]
  simp only [stripSupportedExt, txt_isSuffixOf_append, if_pos, hlen]
  exact List.take_left p txtExt

theorem md_isSuffixOf_append (p : Str) : mdExt.isSuffixOf (p ++ mdExt) = true :=
  List.isSuffixOf_iff_suffix.mpr (List.suffix_append p mdExt)

theorem txt_not_suffixOf_append_md (p : Str) : txtExt.isSuffixOf (p ++ mdExt) = false := by
  cases h : txtExt.isSuffixOf (p ++ mdExt) with
  | false => rfl
  | true =>
      exfalso
      obtain ⟨q, hq⟩ := List.isSuffixOf_iff_suffix.mp h
      have hq' : (q ++ ['.', 't', 'x']) ++ ['t'] = (p ++ ['.', 'm']) ++ ['d'] := by
        simpa [txtExt, mdExt, List.append_assoc] using hq
      have h2 := congrArg (fun l => l.getLastD ' ') hq'
      simp only [List.getLastD_concat] at h2
      exact absurd h2 (by decide)

theorem stripSupportedExt_append_md (p : Str) :
    stripSupportedExt (p ++ mdExt) = p := by
  have hlen : (p ++ mdExt).length - 3 = p.length := by
    simp [mdExt, List.length_append]
  simp only [stripSupportedExt, txt_not_suffixOf_append_md, Bool.false_eq_true, if_false,
    md_isSuffixOf_append, if_pos, hlen]
  exact List.take_left p mdExt

theorem head?_dropWhile_false (p : Char → Bool) (l : Str) : ∀ {c : Char},
    (l.dropWhile p).head? = some c → p c = false := by
  induction l with
  | nil => intro c h; simp [List.dropWhile] at h
  | cons a t ih =>
      intro c h
      simp only [List.dropWhile_cons] at h
      by_cases hp : p a = true
      · rw [if_pos hp] at h
        exact ih h
      · rw [if_neg hp] at h
        simp only [List.head?_cons, Option.some.injEq] at h
        subst h
        simpa using hp

theorem stripBoth_head?_false (p : Char → Bool) (s : Str) {c : Char}
    (h : (stripBoth p s).head? = some c) : p c = false := by
  unfold stripBoth at h
  have hYne : (s.dropWhile p).reverse.dropWhile p ≠ [] := by
    intro he
    rw [he] at h
    simp at h
  have hsplit := List.takeWhile_append_dropWhile p (s.dropWhile p).reverse
  have h2 : ((s.dropWhile p).reverse.takeWhile p ++ (s.dropWhile p).reverse.dropWhile p).reverse
      = s.dropWhile p := by
    rw [hsplit, List.reverse_reverse]
  have hZeq : s.dropWhile p =
      ((s.dropWhile p).reverse.dropWhile p).reverse ++
        ((s.dropWhile p).reverse.takeWhile p).reverse := by
    conv_lhs => rw [← h2]
    rw [List.reverse_append]
  have hhead : (s.dropWhile p).head? = some c := by
    rw [hZeq, List.head?_append_of_ne_nil _ (by simpa using hYne)]
    exact h
  exact head?_dropWhile_false p s hhead

theorem stripBoth_getLast?_false (p : Char → Bool) (s : Str) {c : Char}
    (h : (stripBoth p s).getLast? = some c) : p c = false := by
  unfold stripBoth at h
  rw [List.getLast?_reverse] at h
  exact head?_dropWhile_false p _ h

theorem mem_stripBoth {p : Char → Bool} {s : Str} {c : Char}
    (h : c ∈ stripBoth p s) : c ∈ s := by
  unfold stripBoth at h
  rw [List.mem_reverse] at h
  have h1 : c ∈ (s.dropWhile p).reverse := (List.dropWhile_sublist p).subset h
  rw [List.mem_reverse] at h1
  exact (List.dropWhile_sublist p).subset h1

theorem sanitize_no_dangerous {nm : Str} {c : Char}
    (h : c ∈ sanitize_filename nm) : dangerousChars.contains c = false := by
  unfold sanitize_filename at h
  have h1 : c ∈ replaceDangerous (stripBoth isPySpace nm) := mem_stripBoth h
  unfold replaceDangerous at h1
  rw [List.mem_map] at h1
  obtain ⟨y, _, hy⟩ := h1
  by_cases hd : dangerousChars.contains y = true
  · rw [if_pos hd] at hy
    subst hy
    decide
  · rw [if_neg hd] at hy
    subst hy
    simpa using hd

theorem joinSlash_cons_ne (s : Str) {t : List Str} (ht : t ≠ []) :
    joinSlash (s :: t) = s ++ '/' :: joinSlash t := by
  cases t with
  | nil => exact absurd rfl ht
  | cons a u => rfl

theorem joinSlash_ends (segs : List Str) (lst : Str) :
    ∃ pre, joinSlash (segs ++ [lst]) = pre ++ lst := by
  induction segs with
  | nil => exact ⟨[], rfl⟩
  | cons s t ih =>
      obtain ⟨pre, hpre⟩ := ih
      refine ⟨s ++ '/' :: pre, ?_⟩
      rw [List.cons_append, joinSlash_cons_ne s (by simp), hpre]
      simp [List.append_assoc]

theorem isSuffixOf_append_left {a lst : Str} (pre : Str) (h : a.isSuffixOf lst = true) :
    a.isSuffixOf (pre ++ lst) = true :=
  List.isSuffixOf_iff_suffix.mpr
    ((List.isSuffixOf_iff_suffix.mp h).trans (List.suffix_append pre lst))

/-- Shared shape of every listed note: built by `Note.from_file` from a key
`e` strictly below the root whose on-disk name ends in `.txt`, the record's
`path` still ends in `.txt`, its `file_type` is `txt` or `md`, and its
`name` is the stem of an on-disk `.txt` name. -/
theorem noteFromFile_spec (root : List Str) (fs : FS) (e : List Str) (hene : e ≠ [])
    (hlen : root.length ≤ e.dropLast.length)
    (hsuf : txtExt.isSuffixOf (e.getLastD []) = true) :
    txtExt.isSuffixOf (noteFromFile root fs e).path = true ∧
    ((noteFromFile root fs e).ftype = txtT ∨ (noteFromFile root fs e).ftype = mdT) ∧
    (∃ fname, txtExt.isSuffixOf fname = true ∧
      (noteFromFile root fs e).name = stemName fname) := by
  have hsplit : e = e.dropLast ++ [e.getLast hene] := by
    conv_lhs => rw [← List.dropLast_append_getLast hene]
  have hx : e.getLastD [] = e.getLast hene := by
    conv_lhs => rw [hsplit]
    exact List.getLastD_concat [] (e.getLast hene) e.dropLast
  refine ⟨?_, ?_, ⟨e.getLastD [], hsuf, rfl⟩⟩
  · simp only [noteFromFile]
    rw [hsplit, List.drop_append_of_le_length hlen]
    obtain ⟨pre, hpre⟩ := joinSlash_ends (e.dropLast.drop root.length) (e.getLast hene)
    rw [hpre]
    refine isSuffixOf_append_left pre ?_
    rw [← hx]
    exact hsuf
  · simp only [noteFromFile]
    split
    · exact Or.inr rfl
    · exact Or.inl rfl

/-! ### C1 -/

/-- **C1.** Path sandboxing: any relative path containing a `..` segment, or
starting with a path separator (`/` or `\`), or absolute by host convention,
is rejected by `validate_path`; and whenever `_get_full_path` succeeds, the
resolved location is the sandbox root itself or a descendant of it. -/
theorem c1_path_sandbox (root : List Str) (p : Str) :
    ((dotdot ∈ splitSlash p ∨ startsWithC '/' p = true ∨ startsWithC '\\' p = true ∨
        isAbsPath p = true) → validate_path root p = false)
    ∧ (∀ k, getFullPath root p = .ok k → root.isPrefixOf k = true) := by
  constructor
  · intro h
    by_cases hp : p = []
    · subst hp
      rcases h with hseg | hs | hs | hs
      · simp only [splitSlash, splitSlashAux, List.reverse_nil, List.mem_singleton] at hseg
        exact absurd hseg (by decide)
      all_goals simp [startsWithC, isAbsPath] at hs
    · have hguard : (containsSub dotdot p || startsWithC '/' p || startsWithC '\\' p) = true := by
        rcases h with hseg | hs | hs | hs
        · have := containsSub_of_mem_splitSlash hseg (by decide)
          simp [this]
        · simp [hs]
        · simp [hs]
        · simp only [isAbsPath] at hs
          simp [hs]
      simp [validate_path, hp, hguard]
  · intro k hk
    simp only [getFullPath] at hk
    by_cases hv : validate_path root p = true
    · rw [if_pos hv] at hk
      cases hk
      by_cases hp : p = []
      · subst hp
        have : resolveAbs root [] = root := by
          simp [resolveAbs, splitSlash, splitSlashAux, resolveSegs]
        rw [this]
        exact List.isPrefixOf_iff_prefix.mpr (List.prefix_refl root)
      · simp only [validate_path, if_neg hp] at hv
        split at hv
        · exact absurd hv (by simp)
        · split at hv
          · exact absurd hv (by simp)
          · split at hv
            · exact absurd hv (by simp)
            · exact hv
    · rw [if_neg (by simpa using hv)] at hk
      cases hk

/-- Closed instance of C1: `"a/../b"` (a `..` segment) is rejected, and the
valid path `"a/b"` resolves to a descendant of the root. -/
theorem c1_path_sandbox_witness :
    validate_path [['r']] ['a', '/', '.', '.', '/', 'b'] = false ∧
    [['r']].isPrefixOf (resolveAbs [['r']] ['a', '/', 'b']) = true := by
  constructor
  · exact (c1_path_sandbox [['r']] ['a', '/', '.', '.', '/', 'b']).1 (Or.inl (by decide))
  · exact (c1_path_sandbox [['r']] ['a', '/', 'b']).2 (resolveAbs [['r']] ['a', '/', 'b'])
      (by rfl)

/-! ### C2 -/

/-- **C2 (code bug).** Moving folder `x` into its own child `x/child` does
*not* fail with `InvalidPath`: the descendant check raises its `ValueError`
inside the very `except ValueError: pass` that guards the `relative_to`
probe, so the check is dead code; the operation instead fails later inside
`shutil.move` with a `shutil.Error` (an internal error the HTTP layer maps
to 500).  The filesystem is left unchanged. -/
theorem c2_descendant_check_dead :
    fsMoveFolder rroot fsC2 ['x'] ['x', '/', 'c', 'h', 'i', 'l', 'd']
      = (fsC2, .error .internalError) ∧
    (fsMoveFolder rroot fsC2 ['x'] ['x', '/', 'c', 'h', 'i', 'l', 'd']).2
      ≠ .error .invalidPath := by
  exact ⟨by decide, by decide⟩

/-! ### C3 -/

/-- **C3 (code bug).** Creating note `a` of type `md` in folder `x` and then
note `a` of type `txt` in the same folder does *not* fail `AlreadyExists`:
`FileService.note_exists` unconditionally appends `.txt`, so the `md` create
checks (and writes!) `x/a.md.txt` while the `txt` create checks `x/a.txt`,
finds nothing, and succeeds.  The third conjunct exhibits the mangled
on-disk name left by the first create. -/
theorem c3_collision_not_detected :
    (noteCreate rroot (noteCreate rroot fsC3 ['x'] ['a'] [] mdT).1 ['x'] ['a'] [] txtT).2
      = .ok ⟨['x', '/', 'a'], ['a'], [], txtT⟩ ∧
    (noteCreate rroot (noteCreate rroot fsC3 ['x'] ['a'] [] mdT).1 ['x'] ['a'] [] txtT).2
      ≠ .error .alreadyExists ∧
    (noteCreate rroot fsC3 ['x'] ['a'] [] mdT).1.files
      = [([[ 'r'], ['x'], ['a', '.', 'm', 'd', '.', 't', 'x', 't']], [])] := by
  exact ⟨by decide, by decide, by decide⟩

/-! ### C4 -/

/-- **C4 counterexample.** A note returned by `list_notes` carries its
extension in the `path` field: listing the root of `fsC4` returns the note
for `a.txt` with `path = "a.txt"`, which ends in `.txt` — refuting "the
returned `path` field never carries the extension". -/
theorem c4_path_carries_extension :
    list_notes rroot fsC4 []
      = .ok [⟨['a', '.', 't', 'x', 't'], ['a'], ['h', 'i'], txtT⟩] ∧
    txtExt.isSuffixOf ['a', '.', 't', 'x', 't'] = true := by
  exact ⟨by decide, by decide⟩

/-! ### C6 -/

/-- **C6 counterexample.** Sanitizing `". a ."` yields `" a "`: because
`strip('.')` runs *after* the whitespace strip, interior whitespace that was
guarded by dots survives at the ends — refuting "sanitized names never begin
or end with whitespace". -/
theorem c6_whitespace_survives :
    sanitize_filename ['.', ' ', 'a', ' ', '.'] = [' ', 'a', ' '] ∧
    (sanitize_filename ['.', ' ', 'a', ' ', '.']).head? = some ' ' ∧
    isPySpace ' ' = true := by
  exact ⟨by decide, by decide, by decide⟩

/-- **C6 (amended).** Sanitized names contain none of the forbidden
characters and never begin or end with `.`; when sanitization yields the
empty name, note creation, folder creation, note rename and folder rename
all fail `InvalidPath` leaving the filesystem unchanged.  (Sanitized names
*may* begin or end with whitespace, as the counterexample shows — the dot
strip runs after the whitespace strip.) -/
theorem c6_sanitize_guarantees (nm : Str) :
    (∀ c ∈ sanitize_filename nm, dangerousChars.contains c = false) ∧
    (∀ c, (sanitize_filename nm).head? = some c → c ≠ '.') ∧
    (∀ c, (sanitize_filename nm).getLast? = some c → c ≠ '.') ∧
    (∀ (root : List Str) (fs : FS) (folder c ft : Str), sanitize_filename nm = [] →
        noteCreate root fs folder nm c ft = (fs, .error .invalidPath)) ∧
    (∀ (root : List Str) (fs : FS) (parent : Str), sanitize_filename nm = [] →
        folderSvcCreate root fs parent nm = (fs, .error .invalidPath)) ∧
    (∀ (root : List Str) (fs : FS) (oldPath : Str), sanitize_filename nm = [] →
        fsRenameNote root fs oldPath nm = (fs, .error .invalidPath)) ∧
    (∀ (root : List Str) (fs : FS) (oldPath : Str), sanitize_filename nm = [] →
        fsRenameFolder root fs oldPath nm = (fs, .error .invalidPath)) := by
  refine ⟨fun c hc => sanitize_no_dangerous hc, ?_, ?_, ?_, ?_, ?_, ?_⟩
  · intro c hc
    unfold sanitize_filename at hc
    exact beq_eq_false_iff_ne.mp (stripBoth_head?_false (· == '.') _ hc)
  · intro c hc
    unfold sanitize_filename at hc
    exact beq_eq_false_iff_ne.mp (stripBoth_getLast?_false (· == '.') _ hc)
  · intro root fs folder c ft hemp
    simp only [noteCreate]
    split
    · rfl
    · simp [hemp]
  · intro root fs parent hemp
    simp [folderSvcCreate, hemp]
  · intro root fs oldPath hemp
    simp [fsRenameNote, hemp]
  · intro root fs oldPath hemp
    simp [fsRenameFolder, hemp]

/-- Closed instance of the amended C6: sanitizing `".."` yields the empty
name, and creating a note with that name fails `InvalidPath`. -/
theorem c6_sanitize_guarantees_witness :
    noteCreate rroot fsC3 [] ['.', '.'] [] txtT = (fsC3, .error .invalidPath) :=
  (c6_sanitize_guarantees ['.', '.']).2.2.2.1 rroot fsC3 [] [] txtT (by decide)

/-! ### C9 -/

/-- **C9 (amended).** `validate_path` rejects the substring `..` anywhere
(not only as a whole segment): `"a..b"` survives sanitization unchanged yet
its path is invalid, and both note creation and folder creation under any
name whose sanitized form still contains `..` fail `InvalidPath` with the
filesystem unchanged — such names are un-creatable *via the create
operations*.  An update on such a path fails `NotFound`, not `InvalidPath`
(`note_exists` swallows the validation error).  The rename operations,
which compute their destination without `validate_path`, CAN create such
names — see the counterexample. -/
theorem c9_dotdot_substring_rejected :
    (∀ (root : List Str) (p : Str), containsSub dotdot p = true →
        validate_path root p = false) ∧
    sanitize_filename ['a', '.', '.', 'b'] = ['a', '.', '.', 'b'] ∧
    validate_path rroot ['a', '.', '.', 'b'] = false ∧
    (∀ (root : List Str) (fs : FS) (folder nm c ft : Str),
        containsSub dotdot (sanitize_filename nm) = true →
        noteCreate root fs folder nm c ft = (fs, .error .invalidPath)) ∧
    (∀ (root : List Str) (fs : FS) (parent nm : Str),
        containsSub dotdot (sanitize_filename nm) = true →
        folderSvcCreate root fs parent nm = (fs, .error .invalidPath)) ∧
    (∀ (root : List Str) (fs : FS) (q c : Str), containsSub dotdot q = true →
        noteUpdate root fs q c = (fs, .error .notFound)) := by
  refine ⟨fun root p h => validate_path_false_of_dotdot root h, by decide, by decide,
    ?_, ?_, ?_⟩
  · intro root fs folder nm c ft h
    have hne : sanitize_filename nm ≠ [] := by
      intro he
      rw [he] at h
      exact absurd h (by decide)
    have hnp : containsSub dotdot
        ((if folder = [] then sanitize_filename nm
          else folder ++ '/' :: sanitize_filename nm) ++ ('.' :: ft)) = true := by
      by_cases hf : folder = []
      · rw [if_pos hf]
        exact containsSub_mono_right _ _ _ h
      · rw [if_neg hf]
        have h1 := containsSub_mono_right _ _ ('.' :: ft) h
        have h2 := containsSub_append_left dotdot ['/'] _ h1
        have h3 := containsSub_append_left dotdot folder _ h2
        simpa [List.append_assoc] using h3
    have hcadd : containsSub dotdot (addTxt ((if folder = [] then sanitize_filename nm
        else folder ++ '/' :: sanitize_filename nm) ++ ('.' :: ft))) = true :=
      containsSub_addTxt hnp
    have hgf : getFullPath root (addTxt ((if folder = [] then sanitize_filename nm
        else folder ++ '/' :: sanitize_filename nm) ++ ('.' :: ft))) = .error .invalidPath := by
      simp [getFullPath, validate_path_false_of_dotdot root hcadd]
    have hex : note_exists root fs ((if folder = [] then sanitize_filename nm
        else folder ++ '/' :: sanitize_filename nm) ++ ('.' :: ft)) = false := by
      simp only [note_exists, hgf]
    have hwr : write_note root fs ((if folder = [] then sanitize_filename nm
        else folder ++ '/' :: sanitize_filename nm) ++ ('.' :: ft)) c
        = (fs, .error .invalidPath) := by
      simp only [write_note, hgf]
    simp only [noteCreate]
    split
    · rfl
    · simp [hne, hex, hwr]
  · intro root fs parent nm h
    have hne : sanitize_filename nm ≠ [] := by
      intro he
      rw [he] at h
      exact absurd h (by decide)
    have hfp : containsSub dotdot (if parent = [] then sanitize_filename nm
        else parent ++ '/' :: sanitize_filename nm) = true := by
      by_cases hp : parent = []
      · rw [if_pos hp]
        exact h
      · rw [if_neg hp]
        have h2 := containsSub_append_left dotdot ['/'] _ h
        have h3 := containsSub_append_left dotdot parent _ h2
        simpa using h3
    have hcf : fsCreateFolder root fs (if parent = [] then sanitize_filename nm
        else parent ++ '/' :: sanitize_filename nm) = (fs, .error .invalidPath) := by
      simp only [fsCreateFolder, getFullPath, validate_path_false_of_dotdot root hfp,
        Bool.false_eq_true, if_false]
    simp [folderSvcCreate, hne, hcf]
  · intro root fs q c h
    have hgf : getFullPath root (addTxt q) = .error .invalidPath := by
      simp [getFullPath, validate_path_false_of_dotdot root (containsSub_addTxt h)]
    have hex : note_exists root fs q = false := by
      simp only [note_exists, hgf]
    simp [noteUpdate, hex]

/-- **C9 counterexample.** `rename_note` computes its destination without
`validate_path`: renaming the note `x` to `a..b` succeeds and creates the
on-disk entry `a..b.txt`, whose name contains interior `..` — refuting
"such names are un-creatable and unreachable through the public
interface". -/
theorem c9_rename_creates_dotdot :
    (fsRenameNote rroot fsC9 ['x'] ['a', '.', '.', 'b']).2
      = .ok ['a', '.', '.', 'b', '.', 't', 'x', 't'] ∧
    (fsRenameNote rroot fsC9 ['x'] ['a', '.', '.', 'b']).1.files
      = [([[ 'r'], ['a', '.', '.', 'b', '.', 't', 'x', 't']], [])] ∧
    containsSub dotdot ['a', '.', '.', 'b', '.', 't', 'x', 't'] = true := by
  exact ⟨by decide, by decide, by decide⟩

/-- Closed instance of C9: creating a note named `a..b` at the root fails
`InvalidPath` even though `a..b` survives sanitization. -/
theorem c9_dotdot_substring_rejected_witness :
    noteCreate rroot fsC3 [] ['a', '.', '.', 'b'] [] txtT = (fsC3, .error .invalidPath) :=
  (c9_dotdot_substring_rejected).2.2.2.1 rroot fsC3 [] ['a', '.', '.', 'b'] [] txtT (by decide)

/-! ### C10 -/

/-- **C10.** Sanitization replaces each forbidden character with `-` rather
than rejecting: creating a folder named `a/b` under the root succeeds and
creates the single folder `a-b` directly under the root (not a nested path);
in general a sanitized name can never contain `/`. -/
theorem c10_dangerous_replaced :
    folderSvcCreate rroot fsEmpty [] ['a', '/', 'b']
      = (⟨[], [[['r'], ['a', '-', 'b']]]⟩, .ok (['a', '-', 'b'], ['a', '-', 'b'])) ∧
    (∀ nm : Str, (sanitize_filename nm).contains '/' = false) := by
  constructor
  · decide
  · intro nm
    by_cases hc : '/' ∈ sanitize_filename nm
    · exact absurd (sanitize_no_dangerous hc) (by decide)
    · simpa using hc

/-! ### C8 -/

/-- **C8.** Write/read round-trip: for every valid note path `p` — the path
validates, no component on the parent-creation path exists as a regular
file, and the note's location is not a directory — `write_note p c`
succeeds, and an immediately following `read_note p` on the resulting state
returns exactly `c`. -/
theorem c8_write_read_roundtrip (root : List Str) (fs : FS) (p c : Str)
    (hval : validate_path root (addTxt p) = true)
    (hanc : (prefixesOf (resolveAbs root (addTxt p)).dropLast).any
        (fun pr => root.isPrefixOf pr && fs.isFile pr) = false)
    (hdir : (mkdirsRun root fs (resolveAbs root (addTxt p)).dropLast).isDir root
        (resolveAbs root (addTxt p)) = false) :
    (write_note root fs p c).2 = .ok () ∧
    read_note root (write_note root fs p c).1 p = .ok c := by
  have hgf : getFullPath root (addTxt p) = .ok (resolveAbs root (addTxt p)) := by
    simp [getFullPath, hval]
  have hmk : mkdirs root fs (resolveAbs root (addTxt p)).dropLast
      = .ok (mkdirsRun root fs (resolveAbs root (addTxt p)).dropLast) := by
    simp [mkdirs, hanc]
  constructor
  · simp only [write_note, hgf, hmk]
    simp [hdir]
  · simp only [write_note, hgf, hmk]
    simp only [hdir, Bool.false_eq_true, if_false]
    simp only [read_note, hgf]
    have hlk := lookup_setFile (mkdirsRun root fs (resolveAbs root (addTxt p)).dropLast).files
      (resolveAbs root (addTxt p)) c
    simp [FS.entryExists, FS.isFile, hlk]

/-- Closed instance of C8: writing `hi` to note `w` in the empty sandbox and
reading it back returns `hi`. -/
theorem c8_write_read_roundtrip_witness :
    (write_note rroot fsEmpty ['w'] ['h', 'i']).2 = .ok () ∧
    read_note rroot (write_note rroot fsEmpty ['w'] ['h', 'i']).1 ['w'] = .ok ['h', 'i'] :=
  c8_write_read_roundtrip rroot fsEmpty ['w'] ['h', 'i'] (by decide) (by decide) (by decide)

/-! ### C7 -/

/-- **C7.** For an existing non-empty folder `f` (not the root):
`delete_folder f recursive=false` fails `NotEmpty` and leaves the state
unchanged, while `delete_folder f recursive=true` succeeds and afterwards
neither `f` nor any of its descendants remains. -/
theorem c7_delete_nonempty_folder (root : List Str) (fs : FS) (f : Str)
    (hne : f ≠ [])
    (hval : validate_path root f = true)
    (hdir : fs.dirs.contains (resolveAbs root f) = true)
    (hchild : hasChildEntry fs (resolveAbs root f) = true) :
    fsDeleteFolder root fs f false = (fs, .error .notEmpty) ∧
    (fsDeleteFolder root fs f true).2 = .ok () ∧
    (∀ d ∈ (fsDeleteFolder root fs f true).1.dirs,
        (resolveAbs root f).isPrefixOf d = false) ∧
    (∀ pr ∈ (fsDeleteFolder root fs f true).1.files,
        (resolveAbs root f).isPrefixOf pr.1 = false) := by
  have hgf : getFullPath root f = .ok (resolveAbs root f) := by
    simp [getFullPath, hval]
  have hid : fs.isDir root (resolveAbs root f) = true := by
    simp only [FS.isDir, Bool.or_eq_true]
    exact Or.inr hdir
  have hex : fs.entryExists root (resolveAbs root f) = true := by
    simp [FS.entryExists, hid]
  have hrec : fsDeleteFolder root fs f true
      = (⟨fs.files.filter (fun pr => !((resolveAbs root f).isPrefixOf pr.1)),
          fs.dirs.filter (fun d => !((resolveAbs root f).isPrefixOf d))⟩, .ok ()) := by
    simp [fsDeleteFolder, hne, hgf, hex, hid]
  refine ⟨?_, ?_, ?_, ?_⟩
  · simp [fsDeleteFolder, hne, hgf, hex, hid, hchild]
  · rw [hrec]
  · intro d hd
    rw [hrec] at hd
    have h2 := (List.mem_filter.mp hd).2
    simpa using h2
  · intro pr hpr
    rw [hrec] at hpr
    have h2 := (List.mem_filter.mp hpr).2
    simpa using h2

/-- Closed instance of C7 at the folder `d` of `fsC7` (which contains the
file `d/f.txt`). -/
theorem c7_delete_nonempty_folder_witness :
    fsDeleteFolder rroot fsC7 ['d'] false = (fsC7, .error .notEmpty) ∧
    (fsDeleteFolder rroot fsC7 ['d'] true).2 = .ok () := by
  have h := c7_delete_nonempty_folder rroot fsC7 ['d'] (by decide) (by decide)
    (by decide) (by decide)
  exact ⟨h.1, h.2.1⟩

/-! ### C5 -/

/-- **C5 (code bug).** With a note stored on disk as `m.md` (`.md` is in the
spec's supported extension set), the note `m` exists, yet
`update_note("m", c)` fails `NotFound` instead of writing and returning the
refreshed record: `FileService.note_exists` unconditionally appends `.txt`
and only checks `m.txt`.  The first conjunct exhibits the existing `.md`
file, the second the failing update (state unchanged). -/
theorem c5_update_md_not_found :
    fileAtPath rroot fsC5md ['m', '.', 'm', 'd'] = true ∧
    noteUpdate rroot fsC5md ['m'] ['n', 'e', 'w'] = (fsC5md, .error .notFound) := by
  exact ⟨by decide, by decide⟩

/-! ### C4 (amended) -/

/-- **C4 (amended).** Every note returned by `list_notes`, by
`list_all_notes`, or in the `notes` field a folder-tree node computes
(`treeNodeNotes`, the same glob + `Note.from_file` loop) has an on-disk name
ending in `.txt` (the listings glob `*.txt` only), a `file_type` in
`{txt, md}`, and a `name` that is the stem of an on-disk `.txt` name; but
its `path` field *carries* the on-disk extension (it ends in `.txt`).  Only
`NoteService.get_note` returns an extension-stripped path: a successful
`get_note` on an extension-less path `p` returns `path = p`. -/
theorem c4_note_views_extensions (root : List Str) (fs : FS) :
    (∀ (folder : Str) (notes : List NoteRec), list_notes root fs folder = .ok notes →
        ∀ nt ∈ notes,
          txtExt.isSuffixOf nt.path = true ∧ (nt.ftype = txtT ∨ nt.ftype = mdT) ∧
          ∃ fname, txtExt.isSuffixOf fname = true ∧ nt.name = stemName fname) ∧
    (∀ nt ∈ list_all_notes root fs,
        txtExt.isSuffixOf nt.path = true ∧ (nt.ftype = txtT ∨ nt.ftype = mdT) ∧
        ∃ fname, txtExt.isSuffixOf fname = true ∧ nt.name = stemName fname) ∧
    (∀ k, root.isPrefixOf k = true → ∀ nt ∈ treeNodeNotes root fs k,
        txtExt.isSuffixOf nt.path = true ∧ (nt.ftype = txtT ∨ nt.ftype = mdT) ∧
        ∃ fname, txtExt.isSuffixOf fname = true ∧ nt.name = stemName fname) ∧
    (∀ (p : Str) (nt : NoteRec), txtExt.isSuffixOf p = false → mdExt.isSuffixOf p = false →
        noteGet root fs p = .ok nt → nt.path = p) := by
  have hchild : ∀ k, root.isPrefixOf k = true →
      ∀ nt ∈ (globTxtChildren fs k).map (noteFromFile root fs),
        txtExt.isSuffixOf nt.path = true ∧ (nt.ftype = txtT ∨ nt.ftype = mdT) ∧
        ∃ fname, txtExt.isSuffixOf fname = true ∧ nt.name = stemName fname := by
    intro k hrpk nt hnt
    rw [List.mem_map] at hnt
    obtain ⟨e, he, hne⟩ := hnt
    subst hne
    simp only [globTxtChildren, List.mem_filter, Bool.and_eq_true] at he
    obtain ⟨hemem, ⟨hne0, hdl⟩, hsuf⟩ := he
    have hene : e ≠ [] := by
      intro he0
      rw [he0] at hne0
      simp at hne0
    have hdl' : e.dropLast = k := eq_of_beq hdl
    have hlen : root.length ≤ e.dropLast.length := by
      rw [hdl']
      exact (List.isPrefixOf_iff_prefix.mp hrpk).length_le
    exact noteFromFile_spec root fs e hene hlen hsuf
  refine ⟨?_, ?_, ?_, ?_⟩
  · intro folder notes h nt hnt
    cases hgf : getFullPath root folder with
    | error e => simp [list_notes, hgf] at h
    | ok k =>
        simp only [list_notes, hgf] at h
        split at h
        · cases h
        · split at h
          · cases h
          · rw [Except.ok.injEq] at h
            subst h
            exact hchild k (getFullPath_ok_inRoot hgf) nt hnt
  · intro nt hnt
    simp only [list_all_notes] at hnt
    rw [List.mem_map] at hnt
    obtain ⟨e, he, hne⟩ := hnt
    subst hne
    simp only [globTxtAll, List.mem_filter, Bool.and_eq_true] at he
    obtain ⟨hemem, ⟨⟨hne0, hrp⟩, hneq⟩, hsuf⟩ := he
    have hene : e ≠ [] := by
      intro he0
      rw [he0] at hne0
      simp at hne0
    have hneq' : e ≠ root := by
      intro he0
      rw [he0] at hneq
      simp at hneq
    have hlt : root.length < e.length := by
      have hle := (List.isPrefixOf_iff_prefix.mp hrp).length_le
      rcases Nat.lt_or_ge root.length e.length with h1 | h2
      · exact h1
      · exact absurd ((List.isPrefixOf_iff_prefix.mp hrp).eq_of_length
          (Nat.le_antisymm hle h2)).symm hneq'
    have hlen : root.length ≤ e.dropLast.length := by
      rw [List.length_dropLast]
      omega
    exact noteFromFile_spec root fs e hene hlen hsuf
  · intro k hrpk nt hnt
    simp only [treeNodeNotes] at hnt
    exact hchild k hrpk nt hnt
  · intro p nt hnotxt hnomd hok
    have hrp : resolveNotePath root fs p = p ++ txtExt ∨
        resolveNotePath root fs p = p ++ mdExt := by
      simp only [resolveNotePath, hnotxt, hnomd, Bool.or_self, Bool.false_eq_true, if_false]
      split
      · exact Or.inl rfl
      · split
        · exact Or.inr rfl
        · exact Or.inl rfl
    simp only [noteGet] at hok
    rcases hrp with h | h
    · rw [h] at hok
      cases hr : read_note root fs (p ++ txtExt) with
      | error e => rw [hr] at hok; cases hok
      | ok c0 =>
          rw [hr] at hok
          simp only [Except.ok.injEq] at hok
          rw [← hok]
          simp [stripSupportedExt_append_txt]
    · rw [h] at hok
      cases hr : read_note root fs (p ++ mdExt) with
      | error e => rw [hr] at hok; cases hok
      | ok c0 =>
          rw [hr] at hok
          simp only [Except.ok.injEq] at hok
          rw [← hok]
          simp [stripSupportedExt_append_md]

/-- Closed instance of the amended C4, at the single listed note of `fsC4`. -/
theorem c4_note_views_extensions_witness :
    txtExt.isSuffixOf ((⟨['a', '.', 't', 'x', 't'], ['a'], ['h', 'i'], txtT⟩ : NoteRec).path)
      = true ∧
    ((⟨['a', '.', 't', 'x', 't'], ['a'], ['h', 'i'], txtT⟩ : NoteRec).ftype = txtT ∨
      (⟨['a', '.', 't', 'x', 't'], ['a'], ['h', 'i'], txtT⟩ : NoteRec).ftype = mdT) ∧
    (∃ fname, txtExt.isSuffixOf fname = true ∧
      (⟨['a', '.', 't', 'x', 't'], ['a'], ['h', 'i'], txtT⟩ : NoteRec).name = stemName fname) :=
  (c4_note_views_extensions rroot fsC4).1 []
    [⟨['a', '.', 't', 'x', 't'], ['a'], ['h', 'i'], txtT⟩] (by decide)
    ⟨['a', '.', 't', 'x', 't'], ['a'], ['h', 'i'], txtT⟩ (by decide)

end NoteStoreProof
